import Mathlib

/-!
Verification of the dependency-order resolver and argument-routing helper of
`combinedform.py` (django-combinedform).  Django models are identified by
natural numbers; a model's `_meta.fields` list becomes a list of `ModelField`
values; the `isinstance(f, ForeignKey)` test becomes the `isFK` flag and
`f.rel.to` becomes `relTo`.
-/

namespace Combinedform

/-- A model field as seen by the resolver: `isFK` models
`isinstance(f, ForeignKey)` and `relTo` models `f.rel.to`. -/
structure ModelField where
  isFK : Bool
  relTo : Nat
deriving DecidableEq

/-- Python's `relevant_models or [f.rel.to]`: `None` and the empty list are
falsy, so `or` substitutes the singleton `[f.rel.to]` for both. -/
def relevantList : Option (List Nat) → Nat → List Nat
  | none, t => [t]
  | some l, t => if l.isEmpty then [t] else l

/-- Python `get_model_dependencies(model, relevant_models)`: the `ForeignKey` fields
of `model` whose target is contained in `relevant_models or [f.rel.to]`. -/
def get_model_dependencies (fields : Nat → List ModelField) (model : Nat)
    (relevant_models : Option (List Nat)) : List ModelField :=
  (fields model).filter fun f =>
    f.isFK && (relevantList relevant_models f.relTo).contains f.relTo

/-- Python `nodemap.get(key, Node(key)); nodemap[key] = val`: return the node map
with `key` present, appending a node with an empty dependents list when the
key is absent (Python dicts keep insertion order). -/
def getNodemap (nm : List (Nat × List Nat)) (key : Nat) : List (Nat × List Nat) :=
  if nm.any (fun p => p.1 == key) then nm else nm ++ [(key, [])]

/-- Python `dependency.add_dependent(self)`: append `dep` to the dependents list of
the node stored at `key`. -/
def addDependent (nm : List (Nat × List Nat)) (key dep : Nat) :
    List (Nat × List Nat) :=
  nm.map fun p => if p.1 == key then (p.1, p.2 ++ [dep]) else p

/-- The inner loop of the graph construction: for every in-set ForeignKey
field, get (or create) the node of the field's target and append `model` to
its dependents. -/
def registerDeps (model : Nat) : List (Nat × List Nat) → List ModelField →
    List (Nat × List Nat)
  | nm, [] => nm
  | nm, fkfield :: fs =>
    registerDeps model
      (addDependent (getNodemap nm fkfield.relTo) fkfield.relTo model) fs

/-- One iteration of the outer loop of the graph construction: create the
model's own node, then register it as a dependent of each in-set target. -/
def buildStep (fields : Nat → List ModelField) (models : List Nat)
    (nm : List (Nat × List Nat)) (model : Nat) : List (Nat × List Nat) :=
  registerDeps model (getNodemap nm model)
    (get_model_dependencies fields model (some models))

/-- The outer loop of the graph construction, iterating over the input
models. -/
def buildNodemapGo (fields : Nat → List ModelField) (models : List Nat) :
    List (Nat × List Nat) → List Nat → List (Nat × List Nat)
  | nm, [] => nm
  | nm, m :: ms => buildNodemapGo fields models (buildStep fields models nm m) ms

/-- The graph-building loop of `order_by_dependency`: for every model of the
input create its node, and for every ForeignKey whose target is in the input
set register the model as a dependent of the target's node. -/
def buildNodemap (fields : Nat → List ModelField) (models : List Nat) :
    List (Nat × List Nat) :=
  buildNodemapGo fields models [] models

/-- Python `node.dependents`, read off the node map (`[]` when the key is absent). -/
def depsOf (nm : List (Nat × List Nat)) (x : Nat) : List Nat :=
  ((nm.find? (fun p => p.1 == x)).map (fun p => p.2)).getD []

/-- Python `Node.depth`: `0` when the node has no dependents, otherwise
`1 + max(d.depth for d in self.dependents)`.  The recursion of the Python
property is given explicit fuel; `none` means the recursion does not bottom
out within `fuel` nested calls. -/
def depth (deps : Nat → List Nat) : Nat → Nat → Option Nat
  | 0, _ => none
  | fuel + 1, x =>
    if (deps x).isEmpty then some 0
    else ((deps x).mapM' (depth deps fuel)).map (fun l => 1 + l.foldl Nat.max 0)

/-- Insertion step of a stable descending sort: a later element is placed
after every already-placed element whose key is `≥` its own. -/
def insertDesc (x : Nat × Nat) : List (Nat × Nat) → List (Nat × Nat)
  | [] => [x]
  | y :: ys => if y.1 < x.1 then x :: y :: ys else y :: insertDesc x ys

/-- Python `sorted(pairs, key=lambda tup: tup[0], reverse=True)`: CPython's sort is
stable, also with `reverse=True`, so ties keep their input order. -/
def sortDesc (l : List (Nat × Nat)) : List (Nat × Nat) :=
  l.foldl (fun acc x => insertDesc x acc) []

/-- Python `order_by_dependency(models)`, with explicit `fuel` for the depth
recursion: build the node map, pair every node with its depth, sort stably by
descending depth and return the models.  The result is `none` when some
depth computation does not bottom out within `fuel` (a cyclic graph). -/
def order_by_dependency (fields : Nat → List ModelField) (models : List Nat)
    (fuel : Nat) : Option (List Nat) :=
  let nm := buildNodemap fields models
  ((nm.mapM' fun p => (depth (depsOf nm) fuel p.1).map fun d => (d, p.1))).map
    fun pairs => (sortDesc pairs).map fun t => t.2

/-- The test scenario's models: Foo = 0 (no references), Bar = 1 (one
ForeignKey to Foo), Buzz = 2 (one ForeignKey to Bar). -/
def fooBarBuzz : Nat → List ModelField := fun n =>
  if n = 1 then [⟨true, 0⟩]
  else if n = 2 then [⟨true, 1⟩]
  else []

/-- The keys of a node map, in insertion order. -/
def keysOf (nm : List (Nat × List Nat)) : List Nat := nm.map Prod.fst

/-- Acyclicity of a dependents graph, in its topological-rank
characterization: some rank function strictly decreases from a node to each
of its dependents, so every chain of `depth` recursions is finite. -/
def Acyclic (deps : Nat → List Nat) : Prop :=
  ∃ rank : Nat → Nat, ∀ x d, d ∈ deps x → rank d < rank x

/-- The dependents graph contains a directed cycle, in the standard
closed-set characterization: a non-empty set of nodes each of which has a
dependent inside the set.  The nodes of any directed cycle
`x₀ → x₁ → … → x₀` form such a set, and conversely any such finite set
contains a directed cycle, every node having out-degree at least one inside
it. -/
def HasCycle (deps : Nat → List Nat) : Prop :=
  ∃ C : List Nat, C ≠ [] ∧ ∀ c ∈ C, ∃ d ∈ deps c, d ∈ C

/-- A single model that references itself: the smallest cyclic input. -/
def selfLoopFields : Nat → List ModelField := fun _ => [⟨true, 0⟩]

/-- A diamond: 0 references 1 and 2, each of which references 3.  The node
of 3 therefore has dependents 1 and 2, whose nodes share the dependent 0. -/
def diamondFields : Nat → List ModelField := fun n =>
  if n = 0 then [⟨true, 1⟩, ⟨true, 2⟩]
  else if n = 1 then [⟨true, 3⟩]
  else if n = 2 then [⟨true, 3⟩]
  else []

/-- A chain of doubly-referenced nodes: below `n`, every node `k` has the
two dependents `k + 1, k + 1` (model `k + 1` holds two ForeignKey fields to
model `k`), the shape on which the unmemoized depth recursion doubles at
every level. -/
def ladder (n : Nat) : Nat → List Nat := fun k =>
  if k < n then [k + 1, k + 1] else []

/-- How many times `target.depth` is evaluated while computing `root.depth`:
the Python `depth` property recomputes the depth of every dependent on every
access, so the counts of the dependents add up (no memoization).  The fuel
convention matches `depth`. -/
def depthCalls (deps : Nat → List Nat) : Nat → Nat → Nat → Nat
  | 0, _, _ => 0
  | fuel + 1, root, target =>
    (if root = target then 1 else 0) +
      ((deps root).map (fun d => depthCalls deps fuel d target)).sum

/-- Total number of evaluations of `target.depth` in one
`order_by_dependency` call, which evaluates `n.depth` once per node of the
node map to build the sort keys. -/
def totalDepthCalls (nm : List (Nat × List Nat)) (fuel target : Nat) : Nat :=
  (nm.map (fun p => depthCalls (depsOf nm) fuel p.1 target)).sum

/-- Keyword-argument keys are strings, modelled as character lists. -/
abbrev Key := List Char

/-- Python `raw_argname.split('__', 1)`: split at the first occurrence of `"__"`,
returning the prefix and the remainder; `none` when the key contains no
`"__"` (Python's `'__' in raw_argname` test fails). -/
def splitDunder : Key → Option (Key × Key)
  | [] => none
  | [_] => none
  | c :: c' :: rest =>
    if c = '_' ∧ c' = '_' then some ([], rest)
    else (splitDunder (c' :: rest)).map (fun p => (c :: p.1, p.2))

/-- Python dict assignment `d[k] = v` on an insertion-ordered association
list: overwrite in place when the key exists, append otherwise. -/
def dictSet {α : Type} (d : List (Key × α)) (k : Key) (v : α) :
    List (Key × α) :=
  if d.any (fun p => decide (p.1 = k)) then
    d.map (fun p => if p.1 = k then (k, v) else p)
  else d ++ [(k, v)]

/-- Python `del d[k]`: drop the entry with key `k`. -/
def dictDel {α : Type} (d : List (Key × α)) (k : Key) : List (Key × α) :=
  d.filter (fun p => decide (¬ p.1 = k))

/-- Python `subform_args[formname][argname] = argval` where `subform_args` is a
`defaultdict(dict)`: accessing a missing `formname` creates an empty inner
dict, then the inner assignment runs. -/
def ddInsert {α : Type} (d : List (Key × List (Key × α))) (form arg : Key)
    (v : α) : List (Key × List (Key × α)) :=
  if d.any (fun p => decide (p.1 = form)) then
    d.map (fun p => if p.1 = form then (p.1, dictSet p.2 arg v) else p)
  else d ++ [(form, [(arg, v)])]

/-- Python `extract_subform_args(raw_kwargs, subform_names)`: iterate over a
snapshot of the items; any key containing `"__"` whose prefix before the
first `"__"` is a known subform name is moved into the grouped result and
deleted from `raw_kwargs`.  Returns (grouped result, mutated
`raw_kwargs`). -/
def extract_subform_args {α : Type} (raw_kwargs : List (Key × α))
    (subform_names : List Key) :
    List (Key × List (Key × α)) × List (Key × α) :=
  raw_kwargs.foldl
    (fun st kv =>
      match splitDunder kv.1 with
      | none => st
      | some (formname, argname) =>
        if formname ∈ subform_names then
          (ddInsert st.1 formname argname kv.2, dictDel st.2 kv.1)
        else st)
    ([], raw_kwargs)

/-- The extraction condition of `extract_subform_args`: the key contains
`"__"` and its prefix before the first `"__"` is a known subform name. -/
def extractable (names : List Key) (k : Key) : Bool :=
  match splitDunder k with
  | some (f, _) => decide (f ∈ names)
  | none => false

/-- Lookup in an association-list dict: `d[x]`, as an `Option`. -/
def lookup1 {α : Type} (d : List (Key × α)) (x : Key) : Option α :=
  (d.find? (fun q => decide (q.1 = x))).map Prod.snd

/-- Two-level lookup in the grouped result: `subform_args[form][arg]`. -/
def lookup2 {α : Type} (d : List (Key × List (Key × α))) (f a : Key) :
    Option α :=
  (d.find? (fun p => decide (p.1 = f))).bind (fun p => lookup1 p.2 a)

/-- Success of `List.mapM'` over `Option`, characterized elementwise. -/
theorem mapM_eq_some {α β : Type} {f : α → Option β} :
    ∀ {l : List α} {l' : List β},
      List.mapM' f l = some l' ↔ List.Forall₂ (fun a b => f a = some b) l l' := by
  intro l
  induction l with
  | nil =>
    intro l'
    simp only [List.mapM'_nil, Option.pure_def, Option.some.injEq,
      List.forall₂_nil_left_iff]
    exact ⟨fun h => h.symm, fun h => h.symm⟩
  | cons a t ih =>
    intro l'
    rw [List.mapM'_cons]
    constructor
    · intro h
      cases hfa : f a with
      | none => rw [hfa] at h; simp at h
      | some b =>
        cases hml : List.mapM' f t with
        | none => rw [hfa, hml] at h; simp at h
        | some bs =>
          rw [hfa, hml] at h
          simp only [Option.bind_eq_bind, Option.some_bind, Option.pure_def,
            Option.some.injEq] at h
          subst h
          exact List.Forall₂.cons hfa (ih.mp hml)
    · intro h
      cases h with
      | cons hab hrest =>
        rw [hab, ih.mpr hrest]
        rfl

/-- The fuelled depth computation is monotone in the fuel: once it bottoms
out, more fuel gives the same value. -/
theorem depth_mono {deps : Nat → List Nat} :
    ∀ {fuel fuel' x v}, fuel ≤ fuel' →
      depth deps fuel x = some v → depth deps fuel' x = some v := by
  intro fuel
  induction fuel with
  | zero => intro fuel' x v _ hx; simp [depth] at hx
  | succ n ih =>
    intro fuel' x v h hx
    obtain ⟨m, rfl⟩ : ∃ m, fuel' = m + 1 := ⟨fuel' - 1, by omega⟩
    have hnm : n ≤ m := Nat.le_of_succ_le_succ h
    simp only [depth] at hx ⊢
    by_cases hds : (deps x).isEmpty
    · rw [if_pos hds] at hx ⊢; exact hx
    · rw [if_neg hds] at hx ⊢
      cases hml : List.mapM' (depth deps n) (deps x) with
      | none => rw [hml] at hx; simp at hx
      | some l =>
        rw [hml] at hx
        rw [mapM_eq_some.mpr ((mapM_eq_some.mp hml).imp fun a b hab => ih hnm hab)]
        exact hx

/-- Inserting is a permutation of consing. -/
theorem insertDesc_perm (x : Nat × Nat) :
    ∀ l : List (Nat × Nat), (insertDesc x l).Perm (x :: l) := by
  intro l
  induction l with
  | nil => simp [insertDesc]
  | cons y ys ih =>
    by_cases h : y.1 < x.1
    · simp [insertDesc, h]
    · simp only [insertDesc, if_neg h]
      exact (ih.cons y).trans (List.Perm.swap x y ys)

/-- The insertion-sort fold permutes the accumulator and the input. -/
theorem foldl_insertDesc_perm :
    ∀ (l acc : List (Nat × Nat)),
      (l.foldl (fun a x => insertDesc x a) acc).Perm (acc ++ l) := by
  intro l
  induction l with
  | nil => intro acc; simp
  | cons x t ih =>
    intro acc
    refine (ih (insertDesc x acc)).trans ?_
    refine (List.Perm.append_right t (insertDesc_perm x acc)).trans ?_
    exact List.perm_middle.symm

/-- The stable sort returns a permutation of its input. -/
theorem sortDesc_perm (l : List (Nat × Nat)) : (sortDesc l).Perm l := by
  simpa [sortDesc] using foldl_insertDesc_perm l []

/-- Insertion preserves the weakly-descending-key invariant. -/
theorem insertDesc_sorted {x : Nat × Nat} :
    ∀ {l : List (Nat × Nat)}, l.Pairwise (fun a b => b.1 ≤ a.1) →
      (insertDesc x l).Pairwise (fun a b => b.1 ≤ a.1) := by
  intro l
  induction l with
  | nil => intro _; simp [insertDesc]
  | cons y ys ih =>
    intro h
    rw [List.pairwise_cons] at h
    obtain ⟨hy, hys⟩ := h
    by_cases hlt : y.1 < x.1
    · simp only [insertDesc, if_pos hlt]
      refine List.Pairwise.cons ?_ (List.Pairwise.cons hy hys)
      intro z hz
      rcases List.mem_cons.mp hz with rfl | hz
      · exact Nat.le_of_lt hlt
      · exact le_trans (hy z hz) (Nat.le_of_lt hlt)
    · simp only [insertDesc, if_neg hlt]
      refine List.Pairwise.cons ?_ (ih hys)
      intro z hz
      rcases List.mem_cons.mp ((insertDesc_perm x ys).mem_iff.mp hz) with rfl | hz
      · exact Nat.le_of_not_lt hlt
      · exact hy z hz

/-- The sort's output has weakly descending keys. -/
theorem sortDesc_sorted (l : List (Nat × Nat)) :
    (sortDesc l).Pairwise (fun a b => b.1 ≤ a.1) := by
  suffices h : ∀ (l acc : List (Nat × Nat)),
      acc.Pairwise (fun a b => b.1 ≤ a.1) →
      (l.foldl (fun a x => insertDesc x a) acc).Pairwise
        (fun a b => b.1 ≤ a.1) from h l [] List.Pairwise.nil
  intro l
  induction l with
  | nil => intro acc h; simpa using h
  | cons x t ih => intro acc h; exact ih _ (insertDesc_sorted h)

/-- In a weakly-descending (depth, model) list with distinct models, a model
with a strictly larger depth is indexed strictly earlier. -/
theorem sorted_desc_indexOf_lt :
    ∀ (l : List (Nat × Nat)), l.Pairwise (fun a b => b.1 ≤ a.1) →
      (l.map Prod.snd).Nodup →
      ∀ {dB B dA A : Nat}, (dB, B) ∈ l → (dA, A) ∈ l → dA < dB →
      (l.map Prod.snd).indexOf B < (l.map Prod.snd).indexOf A := by
  intro l
  induction l with
  | nil => intro _ _ _ _ _ _ hB; cases hB
  | cons p rest ih =>
    intro hsort hnd dB B dA A hB hA hlt
    have hinj := List.inj_on_of_nodup_map hnd
    have hAB : A ≠ B := by
      intro hEq
      subst hEq
      have h2 : (dB, A) = (dA, A) := hinj hB hA rfl
      have : dB = dA := congrArg Prod.fst h2
      omega
    rw [List.pairwise_cons] at hsort
    obtain ⟨hp, hrest⟩ := hsort
    have hnd2 := hnd
    rw [List.map_cons, List.nodup_cons] at hnd2
    obtain ⟨hpn, hndr⟩ := hnd2
    rw [List.map_cons]
    by_cases hpB : p.2 = B
    · have hpA : p.2 ≠ A := by rw [hpB]; exact Ne.symm hAB
      rw [List.indexOf_cons_eq _ hpB, List.indexOf_cons_ne _ hpA]
      exact Nat.succ_pos _
    · have hBr : (dB, B) ∈ rest := by
        rcases List.mem_cons.mp hB with rfl | h
        · exact absurd rfl hpB
        · exact h
      by_cases hpA : p.2 = A
      · exfalso
        have hpeq : p = (dA, A) := hinj (List.mem_cons_self p rest) hA hpA
        have : dB ≤ p.1 := hp (dB, B) hBr
        rw [hpeq] at this
        omega
      · have hAr : (dA, A) ∈ rest := by
          rcases List.mem_cons.mp hA with rfl | h
          · exact absurd rfl hpA
          · exact h
        rw [List.indexOf_cons_ne _ hpB, List.indexOf_cons_ne _ hpA]
        exact Nat.succ_lt_succ (ih hrest hndr hBr hAr hlt)

/-- Function `addDependent` changes no keys. -/
theorem keysOf_addDependent (nm : List (Nat × List Nat)) (k d : Nat) :
    keysOf (addDependent nm k d) = keysOf nm := by
  unfold keysOf addDependent
  rw [List.map_map]
  apply List.map_congr_left
  intro p _
  by_cases h : (p.1 == k) = true <;> simp [Function.comp, h]

/-- Key membership after `getNodemap`: the old keys plus the requested
one. -/
theorem mem_keysOf_getNodemap {nm : List (Nat × List Nat)} {k x : Nat} :
    x ∈ keysOf (getNodemap nm k) ↔ x ∈ keysOf nm ∨ x = k := by
  unfold getNodemap keysOf
  by_cases h : (nm.any (fun p => p.1 == k)) = true
  · rw [if_pos h]
    constructor
    · exact Or.inl
    · rintro (hx | rfl)
      · exact hx
      · obtain ⟨p, hp, hpk⟩ := List.any_eq_true.mp h
        exact List.mem_map.mpr ⟨p, hp, by simpa using hpk⟩
  · rw [if_neg h]
    simp [List.mem_append]

/-- Function `getNodemap` keeps keys distinct. -/
theorem nodup_keysOf_getNodemap {nm : List (Nat × List Nat)} (k : Nat)
    (h : (keysOf nm).Nodup) : (keysOf (getNodemap nm k)).Nodup := by
  unfold getNodemap keysOf at *
  by_cases hc : (nm.any (fun p => p.1 == k)) = true
  · rw [if_pos hc]; exact h
  · rw [if_neg hc, List.map_append, List.nodup_append]
    refine ⟨h, by simp, fun x hx hx' => ?_⟩
    have hxk : x = k := by simpa using hx'
    subst hxk
    apply hc
    rw [List.any_eq_true]
    obtain ⟨p, hp, hpx⟩ := List.mem_map.mp hx
    exact ⟨p, hp, by simp [hpx]⟩

/-- Function `getNodemap` changes no dependents list. -/
theorem depsOf_getNodemap (nm : List (Nat × List Nat)) (k x : Nat) :
    depsOf (getNodemap nm k) x = depsOf nm x := by
  unfold getNodemap depsOf
  by_cases hc : (nm.any (fun p => p.1 == k)) = true
  · rw [if_pos hc]
  · rw [if_neg hc, List.find?_append]
    cases hf : nm.find? (fun p => p.1 == x) with
    | some p => simp
    | none =>
      simp only [Option.none_or]
      by_cases hkx : k = x
      · subst hkx; simp
      · simp [hkx]

/-- Finding a node after `addDependent`: the found node, with the new dependent
appended when it is the modified key. -/
theorem find?_addDependent (nm : List (Nat × List Nat)) (k d x : Nat) :
    (addDependent nm k d).find? (fun p => p.1 == x) =
      (nm.find? (fun p => p.1 == x)).map
        (fun p => if p.1 == k then (p.1, p.2 ++ [d]) else p) := by
  unfold addDependent
  induction nm with
  | nil => rfl
  | cons p t ih =>
    rw [List.map_cons]
    by_cases hp : (p.1 == x) = true
    · have hg : (((if p.1 == k then (p.1, p.2 ++ [d]) else p) : Nat × List Nat).1 == x) = true := by
        by_cases h : (p.1 == k) = true <;> simp [h] <;> simpa using hp
      simp only [List.find?_cons, hg, hp]
      rfl
    · have hpf : (p.1 == x) = false := by simpa using hp
      have hg : (((if p.1 == k then (p.1, p.2 ++ [d]) else p) : Nat × List Nat).1 == x) = false := by
        by_cases h : (p.1 == k) = true <;> simp [h] <;> simpa using hpf
      simp only [List.find?_cons, hg, hpf]
      exact ih

/-- Function `addDependent` does not touch other keys' dependents. -/
theorem depsOf_addDependent_ne {nm : List (Nat × List Nat)} {x k : Nat}
    (h : x ≠ k) (d : Nat) : depsOf (addDependent nm k d) x = depsOf nm x := by
  unfold depsOf
  rw [find?_addDependent]
  cases hf : nm.find? (fun p => p.1 == x) with
  | none => rfl
  | some p =>
    have hp1 : p.1 = x := by simpa using List.find?_some hf
    have hpk : p.1 ≠ k := fun hh => h (hp1 ▸ hh)
    simp [hpk]

/-- Function `addDependent` appends to the dependents of an existing key. -/
theorem depsOf_addDependent_self {nm : List (Nat × List Nat)} {k : Nat}
    (hk : k ∈ keysOf nm) (d : Nat) :
    depsOf (addDependent nm k d) k = depsOf nm k ++ [d] := by
  unfold depsOf
  rw [find?_addDependent]
  cases hf : nm.find? (fun p => p.1 == k) with
  | none =>
    exfalso
    rw [List.find?_eq_none] at hf
    obtain ⟨p, hp, hpk⟩ := List.mem_map.mp hk
    exact hf p hp (by simp [hpk])
  | some p =>
    have hp1 : p.1 = k := by simpa using List.find?_some hf
    simp [hp1]

/-- A node with a dependent is a key of the map. -/
theorem mem_depsOf_key {nm : List (Nat × List Nat)} {x d : Nat}
    (h : d ∈ depsOf nm x) : x ∈ keysOf nm := by
  unfold depsOf at h
  cases hf : nm.find? (fun p => p.1 == x) with
  | none => rw [hf] at h; cases h
  | some p =>
    have hp1 : p.1 = x := by simpa using List.find?_some hf
    exact List.mem_map.mpr ⟨p, List.mem_of_find?_eq_some hf, hp1⟩

/-- Key membership after the inner registration loop: the old keys plus the
targets of the processed fields. -/
theorem mem_keysOf_registerDeps {model : Nat} :
    ∀ (fs : List ModelField) (nm : List (Nat × List Nat)) (x : Nat),
      x ∈ keysOf (registerDeps model nm fs) ↔
        x ∈ keysOf nm ∨ ∃ f ∈ fs, f.relTo = x := by
  intro fs
  induction fs with
  | nil => intro nm x; simp [registerDeps]
  | cons f t ih =>
    intro nm x
    simp only [registerDeps]
    rw [ih, keysOf_addDependent, mem_keysOf_getNodemap]
    constructor
    · rintro ((h | rfl) | ⟨g, hg, rfl⟩)
      · exact Or.inl h
      · exact Or.inr ⟨f, List.mem_cons_self f t, rfl⟩
      · exact Or.inr ⟨g, List.mem_cons_of_mem f hg, rfl⟩
    · rintro (h | ⟨g, hg, rfl⟩)
      · exact Or.inl (Or.inl h)
      · rcases List.mem_cons.mp hg with rfl | hg
        · exact Or.inl (Or.inr rfl)
        · exact Or.inr ⟨g, hg, rfl⟩

/-- The inner registration loop keeps keys distinct. -/
theorem nodup_keysOf_registerDeps {model : Nat} :
    ∀ (fs : List ModelField) (nm : List (Nat × List Nat)),
      (keysOf nm).Nodup → (keysOf (registerDeps model nm fs)).Nodup := by
  intro fs
  induction fs with
  | nil => intro nm h; exact h
  | cons f t ih =>
    intro nm h
    simp only [registerDeps]
    apply ih
    rw [keysOf_addDependent]
    exact nodup_keysOf_getNodemap _ h

/-- The inner registration loop only appends to dependents lists. -/
theorem depsOf_registerDeps_mono {model : Nat} :
    ∀ (fs : List ModelField) (nm : List (Nat × List Nat)) {x a : Nat},
      a ∈ depsOf nm x → a ∈ depsOf (registerDeps model nm fs) x := by
  intro fs
  induction fs with
  | nil => intro nm x a h; exact h
  | cons f t ih =>
    intro nm x a h
    simp only [registerDeps]
    apply ih
    by_cases hx : x = f.relTo
    · subst hx
      have hk : f.relTo ∈ keysOf (getNodemap nm f.relTo) :=
        mem_keysOf_getNodemap.mpr (Or.inr rfl)
      rw [depsOf_addDependent_self hk, depsOf_getNodemap]
      exact List.mem_append_left _ h
    · rw [depsOf_addDependent_ne hx, depsOf_getNodemap]
      exact h

/-- After the inner loop, the model is a dependent of each processed
field's target. -/
theorem mem_depsOf_registerDeps {model : Nat} :
    ∀ (fs : List ModelField) (nm : List (Nat × List Nat)) {f : ModelField},
      f ∈ fs → model ∈ depsOf (registerDeps model nm fs) f.relTo := by
  intro fs
  induction fs with
  | nil => intro nm f h; cases h
  | cons g t ih =>
    intro nm f h
    simp only [registerDeps]
    rcases List.mem_cons.mp h with rfl | h
    · apply depsOf_registerDeps_mono
      have hk : f.relTo ∈ keysOf (getNodemap nm f.relTo) :=
        mem_keysOf_getNodemap.mpr (Or.inr rfl)
      rw [depsOf_addDependent_self hk]
      exact List.mem_append_right _ (List.mem_singleton.mpr rfl)
    · exact ih _ h

/-- A field returned with a non-empty candidate list has its target in the
candidate list. -/
theorem gmd_relTo_mem {fields : Nat → List ModelField} {model : Nat}
    {models : List Nat} (hne : models ≠ []) {f : ModelField}
    (hf : f ∈ get_model_dependencies fields model (some models)) :
    f.relTo ∈ models := by
  unfold get_model_dependencies at hf
  have hc := List.of_mem_filter hf
  rw [Bool.and_eq_true] at hc
  have hl : relevantList (some models) f.relTo = models := by
    simp only [relevantList]
    rw [if_neg (by rw [List.isEmpty_iff]; exact hne)]
  rw [hl] at hc
  simpa using hc.2

/-- A ForeignKey field whose target is in the candidate list is returned. -/
theorem gmd_mem_intro {fields : Nat → List ModelField} {model : Nat}
    {models : List Nat} {f : ModelField} (hf : f ∈ fields model)
    (hfk : f.isFK = true) (ht : f.relTo ∈ models) :
    f ∈ get_model_dependencies fields model (some models) := by
  unfold get_model_dependencies
  rw [List.mem_filter]
  refine ⟨hf, ?_⟩
  have hl : relevantList (some models) f.relTo = models := by
    simp only [relevantList]
    rw [if_neg (by rw [List.isEmpty_iff]; exact List.ne_nil_of_mem ht)]
  rw [hl, hfk]
  simpa using ht

/-- Key membership through the outer construction loop. -/
theorem mem_keysOf_buildGo {fields : Nat → List ModelField}
    {models : List Nat} :
    ∀ (ms : List Nat) (nm : List (Nat × List Nat)) (x : Nat),
      x ∈ keysOf (buildNodemapGo fields models nm ms) ↔
        x ∈ keysOf nm ∨ ∃ m ∈ ms, x = m ∨
          ∃ f ∈ get_model_dependencies fields m (some models), f.relTo = x := by
  intro ms
  induction ms with
  | nil => intro nm x; simp [buildNodemapGo]
  | cons m t ih =>
    intro nm x
    simp only [buildNodemapGo]
    rw [ih]
    unfold buildStep
    rw [mem_keysOf_registerDeps, mem_keysOf_getNodemap,
      List.exists_mem_cons_iff]
    constructor
    · rintro (((h | h) | h) | h)
      · exact Or.inl h
      · exact Or.inr (Or.inl (Or.inl h))
      · exact Or.inr (Or.inl (Or.inr h))
      · exact Or.inr (Or.inr h)
    · rintro (h | ((h | h) | h))
      · exact Or.inl (Or.inl (Or.inl h))
      · exact Or.inl (Or.inl (Or.inr h))
      · exact Or.inl (Or.inr h)
      · exact Or.inr h

/-- The node map's keys are exactly the input models. -/
theorem mem_keysOf_buildNodemap {fields : Nat → List ModelField}
    {models : List Nat} {x : Nat} :
    x ∈ keysOf (buildNodemap fields models) ↔ x ∈ models := by
  unfold buildNodemap
  rw [mem_keysOf_buildGo]
  constructor
  · rintro (h | ⟨m, hm, rfl | ⟨f, hf, rfl⟩⟩)
    · simp [keysOf] at h
    · exact hm
    · exact gmd_relTo_mem (List.ne_nil_of_mem hm) hf
  · intro h
    exact Or.inr ⟨x, h, Or.inl rfl⟩

/-- The outer loop keeps keys distinct. -/
theorem nodup_keysOf_buildGo {fields : Nat → List ModelField}
    {models : List Nat} :
    ∀ (ms : List Nat) (nm : List (Nat × List Nat)), (keysOf nm).Nodup →
      (keysOf (buildNodemapGo fields models nm ms)).Nodup := by
  intro ms
  induction ms with
  | nil => intro nm h; exact h
  | cons m t ih =>
    intro nm h
    simp only [buildNodemapGo]
    apply ih
    unfold buildStep
    apply nodup_keysOf_registerDeps
    exact nodup_keysOf_getNodemap _ h

/-- The node map binds every model at most once. -/
theorem nodup_keysOf_buildNodemap {fields : Nat → List ModelField}
    {models : List Nat} : (keysOf (buildNodemap fields models)).Nodup := by
  unfold buildNodemap
  exact nodup_keysOf_buildGo _ _ (by simp [keysOf])

/-- The outer loop only appends to dependents lists. -/
theorem depsOf_buildGo_mono {fields : Nat → List ModelField}
    {models : List Nat} :
    ∀ (ms : List Nat) (nm : List (Nat × List Nat)) {x a : Nat},
      a ∈ depsOf nm x → a ∈ depsOf (buildNodemapGo fields models nm ms) x := by
  intro ms
  induction ms with
  | nil => intro nm x a h; exact h
  | cons m t ih =>
    intro nm x a h
    simp only [buildNodemapGo]
    apply ih
    unfold buildStep
    apply depsOf_registerDeps_mono
    rw [depsOf_getNodemap]
    exact h

/-- Every in-set reference is registered: if `A` is an input model with a
ForeignKey to a target also in the input, `A` ends up among the dependents
of the target's node. -/
theorem mem_depsOf_buildNodemap {fields : Nat → List ModelField}
    {models : List Nat} {A : Nat} {f : ModelField}
    (hA : A ∈ models) (hf : f ∈ fields A) (hfk : f.isFK = true)
    (hB : f.relTo ∈ models) :
    A ∈ depsOf (buildNodemap fields models) f.relTo := by
  unfold buildNodemap
  suffices h : ∀ (ms : List Nat) (nm : List (Nat × List Nat)), A ∈ ms →
      A ∈ depsOf (buildNodemapGo fields models nm ms) f.relTo from
    h models [] hA
  intro ms
  induction ms with
  | nil => intro nm h; cases h
  | cons m t ih =>
    intro nm hm
    simp only [buildNodemapGo]
    rcases List.mem_cons.mp hm with rfl | hm
    · apply depsOf_buildGo_mono
      unfold buildStep
      exact mem_depsOf_registerDeps _ _ (gmd_mem_intro hf hfk hB)
    · exact ih _ hm

/-- Relation `Forall₂`, consumed from the left list. -/
theorem forall2_mem_left {α β : Type} {R : α → β → Prop} :
    ∀ {l₁ : List α} {l₂ : List β}, List.Forall₂ R l₁ l₂ → ∀ {a}, a ∈ l₁ →
      ∃ b ∈ l₂, R a b := by
  intro l₁ l₂ h
  induction h with
  | nil => intro a ha; cases ha
  | cons hab hrest ih =>
    intro a ha
    rcases List.mem_cons.mp ha with rfl | ha
    · exact ⟨_, List.mem_cons_self _ _, hab⟩
    · obtain ⟨b, hb, hr⟩ := ih ha
      exact ⟨b, List.mem_cons_of_mem _ hb, hr⟩

/-- Relation `Forall₂`, consumed from the right list. -/
theorem forall2_mem_right {α β : Type} {R : α → β → Prop} :
    ∀ {l₁ : List α} {l₂ : List β}, List.Forall₂ R l₁ l₂ → ∀ {b}, b ∈ l₂ →
      ∃ a ∈ l₁, R a b := by
  intro l₁ l₂ h
  induction h with
  | nil => intro b hb; cases hb
  | cons hab hrest ih =>
    intro b hb
    rcases List.mem_cons.mp hb with rfl | hb
    · exact ⟨_, List.mem_cons_self _ _, hab⟩
    · obtain ⟨a, ha, hr⟩ := ih hb
      exact ⟨a, List.mem_cons_of_mem _ ha, hr⟩

/-- The (depth, model) pair list carries the node keys in its second
components. -/
theorem pairs_snd_eq {fuel : Nat} {dep : Nat → List Nat} :
    ∀ {nm : List (Nat × List Nat)} {pairs : List (Nat × Nat)},
      List.Forall₂ (fun p q =>
        (depth dep fuel p.1).map (fun d => (d, p.1)) = some q) nm pairs →
      pairs.map Prod.snd = keysOf nm := by
  intro nm pairs h
  induction h with
  | nil => rfl
  | cons hab hrest ih =>
    obtain ⟨d, _, hb⟩ := Option.map_eq_some'.mp hab
    subst hb
    unfold keysOf at ih ⊢
    rw [List.map_cons, List.map_cons, ih]

/-- Successful `order_by_dependency` yields a (depth, model) pair per node,
and the output is the stable descending sort of those pairs. -/
theorem order_destruct {fields : Nat → List ModelField} {models : List Nat}
    {fuel : Nat} {out : List Nat}
    (h : order_by_dependency fields models fuel = some out) :
    ∃ pairs : List (Nat × Nat),
      List.Forall₂ (fun p q =>
        (depth (depsOf (buildNodemap fields models)) fuel p.1).map
          (fun d => (d, p.1)) = some q) (buildNodemap fields models) pairs ∧
      out = (sortDesc pairs).map Prod.snd := by
  simp only [order_by_dependency] at h
  obtain ⟨pairs, hp, hout⟩ := Option.map_eq_some'.mp h
  exact ⟨pairs, mapM_eq_some.mp hp, hout.symm⟩

/-- Each node key has a computed depth and a pair in the pair list. -/
theorem pair_of_key {fuel : Nat} {dep : Nat → List Nat}
    {nm : List (Nat × List Nat)} {pairs : List (Nat × Nat)}
    (hfa : List.Forall₂ (fun p q =>
      (depth dep fuel p.1).map (fun d => (d, p.1)) = some q) nm pairs)
    {x : Nat} (hx : x ∈ keysOf nm) :
    ∃ d, depth dep fuel x = some d ∧ (d, x) ∈ pairs := by
  unfold keysOf at hx
  obtain ⟨p, hp, hp1⟩ := List.mem_map.mp hx
  obtain ⟨q, hq, hrel⟩ := forall2_mem_left hfa hp
  obtain ⟨d, hd, hqd⟩ := Option.map_eq_some'.mp hrel
  subst hqd
  subst hp1
  exact ⟨d, hd, hq⟩

/-- Each pair records the depth of its model. -/
theorem depth_of_pair {fuel : Nat} {dep : Nat → List Nat}
    {nm : List (Nat × List Nat)} {pairs : List (Nat × Nat)}
    (hfa : List.Forall₂ (fun p q =>
      (depth dep fuel p.1).map (fun d => (d, p.1)) = some q) nm pairs)
    {q : Nat × Nat} (hq : q ∈ pairs) : depth dep fuel q.2 = some q.1 := by
  obtain ⟨p, _, hrel⟩ := forall2_mem_right hfa hq
  obtain ⟨d, hd, hqd⟩ := Option.map_eq_some'.mp hrel
  subst hqd
  exact hd

/-- The base value of a `Nat.max` fold is a lower bound of the result. -/
theorem foldl_max_base : ∀ (l : List Nat) (b : Nat), b ≤ l.foldl Nat.max b := by
  intro l
  induction l with
  | nil => intro b; simp
  | cons x t ih =>
    intro b
    rw [List.foldl_cons]
    exact le_trans (Nat.le_max_left b x) (ih _)

/-- Every member of a list bounds the `Nat.max` fold from below. -/
theorem le_foldl_max :
    ∀ (l : List Nat) (b a : Nat), a ∈ l → a ≤ l.foldl Nat.max b := by
  intro l
  induction l with
  | nil => intro b a h; cases h
  | cons x t ih =>
    intro b a h
    rw [List.foldl_cons]
    rcases List.mem_cons.mp h with rfl | h
    · exact le_trans (Nat.le_max_right b a) (foldl_max_base t _)
    · exact ih _ _ h

/-- The depth of a node strictly exceeds the depth of each of its
dependents. -/
theorem depth_lt_of_mem_deps {dep : Nat → List Nat} {fuel A B dA dB : Nat}
    (hmem : A ∈ dep B) (hB : depth dep fuel B = some dB)
    (hA : depth dep fuel A = some dA) : dA < dB := by
  cases fuel with
  | zero => simp [depth] at hB
  | succ n =>
    simp only [depth] at hB
    have hne : ¬((dep B).isEmpty = true) := by
      simp only [List.isEmpty_iff]
      exact List.ne_nil_of_mem hmem
    rw [if_neg hne] at hB
    obtain ⟨l, hl, hB'⟩ := Option.map_eq_some'.mp hB
    obtain ⟨la, hla, hrel⟩ := forall2_mem_left (mapM_eq_some.mp hl) hmem
    have hmono : depth dep (n + 1) A = some la :=
      depth_mono (Nat.le_succ n) hrel
    rw [hA] at hmono
    have hEq : dA = la := by injection hmono
    have hle : la ≤ l.foldl Nat.max 0 := le_foldl_max l 0 la hla
    omega

/-- Calling `get_model_dependencies` with `relevant_models = None` keeps
every ForeignKey field: the membership test degenerates to
`f.rel.to in [f.rel.to]`, which always holds. -/
theorem gmd_none_all_fks (fields : Nat → List ModelField) (model : Nat) :
    get_model_dependencies fields model none =
      (fields model).filter (fun f => f.isFK) := by
  unfold get_model_dependencies
  apply List.filter_congr
  intro f _
  simp [relevantList]

/-- An empty `relevant_models` list is falsy in Python, so `or` replaces it
by `[f.rel.to]` exactly as for `None`. -/
theorem gmd_empty_eq_none (fields : Nat → List ModelField) (model : Nat) :
    get_model_dependencies fields model (some []) =
      get_model_dependencies fields model none := rfl

/-- C7: for Foo = 0 (no references), Bar = 1 (references Foo), Buzz = 2
(references Bar), `order_by_dependency([Buzz, Bar, Foo])` returns
`[Foo, Bar, Buzz]`, so Foo comes before Bar and Bar before Buzz. -/
theorem C7_foo_bar_buzz_order :
    order_by_dependency fooBarBuzz [2, 1, 0] 4 = some [0, 1, 2] := by decide

/-- C3, counterexample: with `relevant_models = None`,
`get_model_dependencies` does not return only the self-loop references.
Model Bar = 1 has a single ForeignKey to Foo = 0 (not a self-loop), and the
call returns that reference rather than the empty self-loop list. -/
theorem C3_counterexample :
    ¬ (get_model_dependencies fooBarBuzz 1 none =
        (fooBarBuzz 1).filter fun f => f.isFK && f.relTo == 1) := by decide

/-- C3, amended: with `relevant_models = None`, `get_model_dependencies`
returns all ForeignKey references of the entity type, whatever their target
(the `f.rel.to in [f.rel.to]` test is vacuously true), as its docstring
states. -/
theorem C3_amended_none_returns_all_fks (fields : Nat → List ModelField)
    (model : Nat) :
    get_model_dependencies fields model none =
      (fields model).filter (fun f => f.isFK) :=
  gmd_none_all_fks fields model

/-- C10: an empty candidate collection behaves exactly like `None`: the falsy
empty list is replaced by `[f.rel.to]` for each field, so all ForeignKey
references are returned rather than none. -/
theorem C10_empty_relevant_like_none (fields : Nat → List ModelField)
    (model : Nat) :
    get_model_dependencies fields model (some []) =
        get_model_dependencies fields model none ∧
      get_model_dependencies fields model (some []) =
        (fields model).filter (fun f => f.isFK) :=
  ⟨gmd_empty_eq_none fields model,
    (gmd_empty_eq_none fields model).trans (gmd_none_all_fks fields model)⟩

/-- C2, counterexample: in the Foo/Bar/Buzz scenario, Buzz = 2 is referenced
by nothing in the set (its node has no dependents and depth 0) yet sorts
last, not first; Foo = 0 is the root of the reference chain with the largest
depth yet sorts first, not last. -/
theorem C2_counterexample :
    order_by_dependency fooBarBuzz [2, 1, 0] 4 = some [0, 1, 2] ∧
      depsOf (buildNodemap fooBarBuzz [2, 1, 0]) 2 = [] ∧
      depth (depsOf (buildNodemap fooBarBuzz [2, 1, 0])) 4 2 = some 0 ∧
      depth (depsOf (buildNodemap fooBarBuzz [2, 1, 0])) 4 0 = some 2 ∧
      ([0, 1, 2] : List Nat).head? ≠ some 2 ∧
      ([0, 1, 2] : List Nat).getLast? ≠ some 0 := by decide

/-- C1: whenever `order_by_dependency` produces an output (which, by the
termination theorem, is exactly the acyclic case), an input model `A` with a
ForeignKey whose target `B` is also in the input appears strictly after `B`
in the output. -/
theorem C1_referenced_before_referencer
    (fields : Nat → List ModelField) (models : List Nat) (fuel : Nat)
    (out : List Nat) (A B : Nat) (f : ModelField)
    (hout : order_by_dependency fields models fuel = some out)
    (hA : A ∈ models) (hB : B ∈ models) (hf : f ∈ fields A)
    (hfk : f.isFK = true) (ht : f.relTo = B) :
    out.indexOf B < out.indexOf A := by
  subst ht
  obtain ⟨pairs, hfa, hout'⟩ := order_destruct hout
  have hAk : A ∈ keysOf (buildNodemap fields models) :=
    mem_keysOf_buildNodemap.mpr hA
  have hBk : f.relTo ∈ keysOf (buildNodemap fields models) :=
    mem_keysOf_buildNodemap.mpr hB
  obtain ⟨dA, hdA, hpA⟩ := pair_of_key hfa hAk
  obtain ⟨dB, hdB, hpB⟩ := pair_of_key hfa hBk
  have hdep : A ∈ depsOf (buildNodemap fields models) f.relTo :=
    mem_depsOf_buildNodemap hA hf hfk hB
  have hlt : dA < dB := depth_lt_of_mem_deps hdep hdB hdA
  have hsnd : pairs.map Prod.snd = keysOf (buildNodemap fields models) :=
    pairs_snd_eq hfa
  have hnodup_pairs : (pairs.map Prod.snd).Nodup := by
    rw [hsnd]; exact nodup_keysOf_buildNodemap
  have hperm : (sortDesc pairs).Perm pairs := sortDesc_perm pairs
  have hnodup : ((sortDesc pairs).map Prod.snd).Nodup :=
    ((hperm.map Prod.snd).nodup_iff).mpr hnodup_pairs
  have hBmem : (dB, f.relTo) ∈ sortDesc pairs := hperm.mem_iff.mpr hpB
  have hAmem : (dA, A) ∈ sortDesc pairs := hperm.mem_iff.mpr hpA
  rw [hout']
  exact sorted_desc_indexOf_lt (sortDesc pairs) (sortDesc_sorted pairs)
    hnodup hBmem hAmem hlt

/-- Witness for C1 at the Foo/Bar/Buzz scenario: Bar = 1 references
Foo = 0 and Foo is indexed before Bar in the output `[0, 1, 2]`. -/
theorem C1_referenced_before_referencer_witness :
    ([0, 1, 2] : List Nat).indexOf 0 < ([0, 1, 2] : List Nat).indexOf 1 :=
  C1_referenced_before_referencer fooBarBuzz [2, 1, 0] 4 [0, 1, 2] 1 0
    ⟨true, 0⟩ (by decide) (by decide) (by decide) (by decide) (by decide)
    (by decide)

/-- C2, amended: the orientation of the claim is reversed in the code.  In a
successful `order_by_dependency` output the depths are weakly descending, so
the largest depth (the root that others reference) sorts first; and a node
with no dependents (an entity type referenced by nothing in the set) has
depth 0, the minimum, so it sorts at the end, not the front. -/
theorem C2_amended_descending_depths
    (fields : Nat → List ModelField) (models : List Nat) (fuel : Nat)
    (out : List Nat)
    (hout : order_by_dependency fields models fuel = some out) :
    (∀ x ∈ out, depsOf (buildNodemap fields models) x = [] →
        depth (depsOf (buildNodemap fields models)) fuel x = some 0) ∧
      out.Pairwise (fun a b => ∀ da db,
        depth (depsOf (buildNodemap fields models)) fuel a = some da →
        depth (depsOf (buildNodemap fields models)) fuel b = some db →
        db ≤ da) := by
  obtain ⟨pairs, hfa, hout'⟩ := order_destruct hout
  subst hout'
  constructor
  · intro x hx hdeps
    obtain ⟨q, hq, hq2⟩ := List.mem_map.mp hx
    have hd := depth_of_pair hfa ((sortDesc_perm pairs).mem_iff.mp hq)
    subst hq2
    cases fuel with
    | zero => simp [depth] at hd
    | succ n =>
      simp only [depth]
      rw [hdeps]
      simp
  · rw [List.pairwise_map]
    refine List.Pairwise.imp_of_mem ?_ (sortDesc_sorted pairs)
    intro a b ha hb hr da db hda hdb
    have ha' := depth_of_pair hfa ((sortDesc_perm pairs).mem_iff.mp ha)
    have hb' := depth_of_pair hfa ((sortDesc_perm pairs).mem_iff.mp hb)
    have hda' : a.1 = da := by
      have := ha'.symm.trans hda
      injection this
    have hdb' : b.1 = db := by
      have := hb'.symm.trans hdb
      injection this
    omega

/-- Witness for the amended C2 at the Foo/Bar/Buzz scenario. -/
theorem C2_amended_descending_depths_witness :
    (∀ x ∈ ([0, 1, 2] : List Nat),
        depsOf (buildNodemap fooBarBuzz [2, 1, 0]) x = [] →
        depth (depsOf (buildNodemap fooBarBuzz [2, 1, 0])) 4 x = some 0) ∧
      ([0, 1, 2] : List Nat).Pairwise (fun a b => ∀ da db,
        depth (depsOf (buildNodemap fooBarBuzz [2, 1, 0])) 4 a = some da →
        depth (depsOf (buildNodemap fooBarBuzz [2, 1, 0])) 4 b = some db →
        db ≤ da) :=
  C2_amended_descending_depths fooBarBuzz [2, 1, 0] 4 [0, 1, 2] (by decide)

/-- C6: a successful output lists each distinct input model exactly once:
it has no duplicates and its members are exactly the input's members. -/
theorem C6_each_distinct_input_once
    (fields : Nat → List ModelField) (models : List Nat) (fuel : Nat)
    (out : List Nat)
    (hout : order_by_dependency fields models fuel = some out) :
    out.Nodup ∧ ∀ m : Nat, m ∈ out ↔ m ∈ models := by
  obtain ⟨pairs, hfa, hout'⟩ := order_destruct hout
  have hsnd : pairs.map Prod.snd = keysOf (buildNodemap fields models) :=
    pairs_snd_eq hfa
  have hperm : ((sortDesc pairs).map Prod.snd).Perm (pairs.map Prod.snd) :=
    (sortDesc_perm pairs).map Prod.snd
  subst hout'
  constructor
  · apply hperm.nodup_iff.mpr
    rw [hsnd]
    exact nodup_keysOf_buildNodemap
  · intro m
    rw [hperm.mem_iff, hsnd]
    exact mem_keysOf_buildNodemap

/-- Witness for C6: a duplicated input model, Foo listed twice, appears once
in the output, and the output's membership matches the input's. -/
theorem C6_each_distinct_input_once_witness :
    ([0, 1, 2] : List Nat).Nodup ∧
      (∀ m : Nat, m ∈ ([0, 1, 2] : List Nat) ↔ m ∈ ([2, 1, 0, 2] : List Nat)) :=
  C6_each_distinct_input_once fooBarBuzz [2, 1, 0, 2] 4 [0, 1, 2] (by decide)

/-- A non-empty candidate list is truthy, so Python's `or` keeps it. -/
theorem relevantList_some {models : List Nat} (hne : models ≠ []) (t : Nat) :
    relevantList (some models) t = models := by
  simp only [relevantList]
  rw [if_neg (by rw [List.isEmpty_iff]; exact hne)]

/-- Dropping the ForeignKey fields whose target is outside the candidate
list does not change `get_model_dependencies` over that list. -/
theorem gmd_restrict {fields : Nat → List ModelField} {models : List Nat}
    (hne : models ≠ []) (m : Nat) :
    get_model_dependencies
        (fun mm => (fields mm).filter fun f => !f.isFK || models.contains f.relTo)
        m (some models) =
      get_model_dependencies fields m (some models) := by
  unfold get_model_dependencies
  rw [List.filter_filter]
  apply List.filter_congr
  intro f _
  rw [relevantList_some hne]
  cases hfk : f.isFK <;> cases hc : models.contains f.relTo <;>
    simp [hfk, hc]

/-- The node map ignores ForeignKey fields pointing outside the input. -/
theorem buildGo_restrict {fields : Nat → List ModelField}
    {models : List Nat} (hne : models ≠ []) :
    ∀ (ms : List Nat) (nm : List (Nat × List Nat)),
      buildNodemapGo
          (fun mm => (fields mm).filter fun f => !f.isFK || models.contains f.relTo)
          models nm ms =
        buildNodemapGo fields models nm ms := by
  intro ms
  induction ms with
  | nil => intro nm; rfl
  | cons m t ih =>
    intro nm
    simp only [buildNodemapGo]
    rw [show buildStep
          (fun mm => (fields mm).filter fun f => !f.isFK || models.contains f.relTo)
          models nm m = buildStep fields models nm m from by
        unfold buildStep; rw [gmd_restrict hne]]
    exact ih _

/-- Restricting fields to in-set targets leaves the node map unchanged. -/
theorem buildNodemap_restrict {fields : Nat → List ModelField}
    {models : List Nat} :
    buildNodemap
        (fun mm => (fields mm).filter fun f => !f.isFK || models.contains f.relTo)
        models =
      buildNodemap fields models := by
  unfold buildNodemap
  cases models with
  | nil => rfl
  | cons m0 t0 => exact buildGo_restrict (List.cons_ne_nil m0 t0) _ _

/-- C4: ForeignKey references whose target is outside the input set are
ignored entirely: deleting them from every model changes neither the node
map nor the output of `order_by_dependency`; and `order_by_dependency([X])`
where all of X's ForeignKeys point outside `[X]` returns `[X]`, the target
never appearing. -/
theorem C4_out_of_set_refs_ignored
    (fields : Nat → List ModelField) (models : List Nat) (fuel : Nat)
    (X : Nat)
    (hX : ∀ f ∈ fields X, f.isFK = true → f.relTo ≠ X) (hfuel : 1 ≤ fuel) :
    order_by_dependency
        (fun mm => (fields mm).filter fun f => !f.isFK || models.contains f.relTo)
        models fuel = order_by_dependency fields models fuel ∧
      order_by_dependency fields [X] fuel = some [X] := by
  constructor
  · simp only [order_by_dependency]
    rw [buildNodemap_restrict]
  · have hgmd : get_model_dependencies fields X (some [X]) = [] := by
      unfold get_model_dependencies
      rw [List.filter_eq_nil_iff]
      intro f hf
      rw [relevantList_some (List.cons_ne_nil X []) f.relTo]
      cases hfk : f.isFK
      · simp
      · simp only [Bool.true_and]
        intro hc
        exact hX f hf hfk (by simpa using hc)
    have hnm : buildNodemap fields [X] = [(X, [])] := by
      unfold buildNodemap
      simp only [buildNodemapGo, buildStep, hgmd, registerDeps]
      simp [getNodemap]
    obtain ⟨n, rfl⟩ : ∃ n, fuel = n + 1 := ⟨fuel - 1, by omega⟩
    have hdeps : depsOf [(X, [])] X = [] := by
      unfold depsOf
      simp
    simp only [order_by_dependency]
    rw [hnm]
    simp only [List.mapM'_cons, List.mapM'_nil, depth, hdeps]
    simp [sortDesc, insertDesc]

/-- Witness for C4: in the Foo/Bar/Buzz scenario, stripping out-of-set
references leaves the result unchanged, and a singleton input whose
references leave the set resolves to itself. -/
theorem C4_out_of_set_refs_ignored_witness :
    order_by_dependency
        (fun mm => (fooBarBuzz mm).filter fun f =>
          !f.isFK || ([2, 1, 0] : List Nat).contains f.relTo)
        [2, 1, 0] 4 = order_by_dependency fooBarBuzz [2, 1, 0] 4 ∧
      order_by_dependency fooBarBuzz [2] 4 = some [2] :=
  C4_out_of_set_refs_ignored fooBarBuzz [2, 1, 0] 4 2 (by decide) (by decide)

/-- Option-valued `mapM'` succeeds when every element does. -/
theorem mapM'_isSome {α β : Type} {f : α → Option β} :
    ∀ {l : List α}, (∀ a ∈ l, ∃ b, f a = some b) →
      ∃ l', List.mapM' f l = some l' := by
  intro l
  induction l with
  | nil => intro _; exact ⟨[], rfl⟩
  | cons a t ih =>
    intro h
    obtain ⟨b, hb⟩ := h a (List.mem_cons_self a t)
    obtain ⟨l', hl'⟩ := ih (fun x hx => h x (List.mem_cons_of_mem a hx))
    exact ⟨b :: l', by rw [List.mapM'_cons, hb, hl']; rfl⟩

/-- Under a topological rank, the depth recursion bottoms out with fuel
exceeding the rank. -/
theorem depth_some_of_rank {deps : Nat → List Nat} {rank : Nat → Nat}
    (hrank : ∀ x d, d ∈ deps x → rank d < rank x) :
    ∀ (n x : Nat), rank x < n → ∃ v, depth deps n x = some v := by
  intro n
  induction n with
  | zero => intro x h; omega
  | succ k ih =>
    intro x hx
    by_cases hds : (deps x).isEmpty = true
    · exact ⟨0, by simp only [depth]; rw [if_pos hds]⟩
    · have hall : ∀ d ∈ deps x, ∃ v, depth deps k d = some v := by
        intro d hd
        exact ih d (by have := hrank x d hd; omega)
      obtain ⟨l, hl⟩ := mapM'_isSome hall
      exact ⟨1 + l.foldl Nat.max 0, by
        simp only [depth]; rw [if_neg hds, hl]; rfl⟩

/-- Option-valued `mapM'` fails as soon as one element does. -/
theorem mapM'_none_of_mem {α β : Type} {f : α → Option β} :
    ∀ {l : List α} {a : α}, a ∈ l → f a = none → List.mapM' f l = none := by
  intro l
  induction l with
  | nil => intro a h _; cases h
  | cons b t ih =>
    intro a h hfa
    rw [List.mapM'_cons]
    rcases List.mem_cons.mp h with rfl | h
    · rw [hfa]; rfl
    · cases hfb : f b with
      | none => rfl
      | some v => rw [ih h hfa]; rfl

/-- On a node of a cycle the depth recursion has no base case: whatever the
fuel, the recursion descends into the cycle again and never bottoms out. -/
theorem depth_none_of_cycle {deps : Nat → List Nat} {C : List Nat}
    (hC : ∀ c ∈ C, ∃ d ∈ deps c, d ∈ C) :
    ∀ (fuel x : Nat), x ∈ C → depth deps fuel x = none := by
  intro fuel
  induction fuel with
  | zero => intro x _; rfl
  | succ n ih =>
    intro x hx
    obtain ⟨d, hd, hdC⟩ := hC x hx
    simp only [depth]
    rw [if_neg (by
      simp only [List.isEmpty_iff]
      exact List.ne_nil_of_mem hd)]
    rw [mapM'_none_of_mem hd (ih d hdC)]
    rfl

/-- C5: the resolver is total over every acyclic input — some fuel makes
every depth computation bottom out and `order_by_dependency` return an
output — while on every input whose restricted reference graph contains a
cycle the recursive depth computation has no base case and no fuel ever
suffices: the call yields no output for any fuel, and no dedicated cycle
error exists (`none` stands for the unbounded recursion, never for a
reported cycle). -/
theorem C5_total_acyclic_diverges_cyclic
    (fields : Nat → List ModelField) (models : List Nat) :
    (Acyclic (depsOf (buildNodemap fields models)) →
        ∃ fuel out, order_by_dependency fields models fuel = some out) ∧
      (HasCycle (depsOf (buildNodemap fields models)) →
        ∀ fuel, order_by_dependency fields models fuel = none) := by
  constructor
  · intro hacyc
    obtain ⟨rank, hrank⟩ := hacyc
    refine ⟨((buildNodemap fields models).map (fun p => rank p.1)).foldl
      Nat.max 0 + 1, ?_⟩
    have hdepths : ∀ p ∈ buildNodemap fields models, ∃ q,
        (depth (depsOf (buildNodemap fields models))
            (((buildNodemap fields models).map (fun p => rank p.1)).foldl
              Nat.max 0 + 1) p.1).map
          (fun d => (d, p.1)) = some q := by
      intro p hp
      have hr : rank p.1 <
          ((buildNodemap fields models).map (fun p => rank p.1)).foldl
            Nat.max 0 + 1 := by
        have := le_foldl_max ((buildNodemap fields models).map
          (fun p => rank p.1)) 0 (rank p.1) (List.mem_map.mpr ⟨p, hp, rfl⟩)
        omega
      obtain ⟨v, hv⟩ := depth_some_of_rank hrank _ p.1 hr
      exact ⟨(v, p.1), by rw [hv]; rfl⟩
    obtain ⟨pairs, hpairs⟩ := mapM'_isSome hdepths
    refine ⟨(sortDesc pairs).map Prod.snd, ?_⟩
    simp only [order_by_dependency]
    rw [hpairs]
    rfl
  · rintro ⟨C, hCne, hC⟩ fuel
    obtain ⟨x, hx⟩ := List.exists_mem_of_ne_nil C hCne
    obtain ⟨d, hd, _⟩ := hC x hx
    have hxkey : x ∈ keysOf (buildNodemap fields models) := mem_depsOf_key hd
    unfold keysOf at hxkey
    obtain ⟨p, hp, hp1⟩ := List.mem_map.mp hxkey
    have hdepth : depth (depsOf (buildNodemap fields models)) fuel p.1 =
        none := by
      rw [hp1]
      exact depth_none_of_cycle hC fuel x hx
    simp only [order_by_dependency]
    rw [mapM'_none_of_mem hp (by rw [hdepth]; rfl)]
    rfl

/-- Witness for C5: the Foo/Bar/Buzz reference graph is acyclic (rank
`2 - x` decreases along dependents), so the resolver is total on it, and
the self-loop input contains the cycle `{0}`, so it diverges for every
fuel. -/
theorem C5_total_acyclic_diverges_cyclic_witness :
    (∃ fuel out, order_by_dependency fooBarBuzz [2, 1, 0] fuel = some out) ∧
      ∀ fuel, order_by_dependency selfLoopFields [0] fuel = none :=
  ⟨(C5_total_acyclic_diverges_cyclic fooBarBuzz [2, 1, 0]).1
    ⟨fun x => 2 - x, by
      intro x d hd
      have hx : x ∈ keysOf (buildNodemap fooBarBuzz [2, 1, 0]) :=
        mem_depsOf_key hd
      have hkeys : keysOf (buildNodemap fooBarBuzz [2, 1, 0]) = [2, 1, 0] := by
        decide
      rw [hkeys] at hx
      have hx' : x = 2 ∨ x = 1 ∨ x = 0 := by simpa using hx
      rcases hx' with rfl | rfl | rfl
      · rw [show depsOf (buildNodemap fooBarBuzz [2, 1, 0]) 2 = [] from by
          decide] at hd
        cases hd
      · rw [show depsOf (buildNodemap fooBarBuzz [2, 1, 0]) 1 = [2] from by
          decide] at hd
        have hd2 : d = 2 := by simpa using hd
        subst hd2
        decide
      · rw [show depsOf (buildNodemap fooBarBuzz [2, 1, 0]) 0 = [1] from by
          decide] at hd
        have hd1 : d = 1 := by simpa using hd
        subst hd1
        decide⟩,
   (C5_total_acyclic_diverges_cyclic selfLoopFields [0]).2
     ⟨[0], List.cons_ne_nil 0 [], by decide⟩⟩

/-- On the doubled-reference ladder the unmemoized depth recursion doubles
at every level: evaluating the depth of node `j` evaluates the depth of node
`j + d` exactly `2 ^ d` times. -/
theorem ladder_depthCalls :
    ∀ (d j : Nat), depthCalls (ladder (j + d)) (d + 1) j (j + d) = 2 ^ d := by
  intro d
  induction d with
  | zero =>
    intro j
    simp [depthCalls, ladder]
  | succ d ih =>
    intro j
    rw [show j + (d + 1) = (j + 1) + d from by omega]
    rw [depthCalls]
    rw [show ladder ((j + 1) + d) j = [j + 1, j + 1] from by
      simp only [ladder]; rw [if_pos (by omega)]]
    rw [if_neg (by omega), List.map_cons, List.map_cons, List.map_nil,
      ih (j + 1)]
    simp [Nat.pow_succ]
    omega

/-- C8, counterexample: the depth of a node is not computed at most once per
call.  In the diamond graph (0 references 1 and 2, which both reference 3),
a single pass over the node map evaluates the depth of node 0 five times. -/
theorem C8_counterexample :
    1 < totalDepthCalls (buildNodemap diamondFields [0, 1, 2, 3]) 5 0 := by
  decide

/-- C8, amended: `Node.depth` is not memoized — every access recomputes the
whole recursion.  In the diamond built by the code, node 0's depth is
evaluated five times in one call, and on the doubled-reference ladder the
number of evaluations grows as `2 ^ d`: shared substructure does cause
exponential blowup. -/
theorem C8_amended_depth_not_memoized :
    totalDepthCalls (buildNodemap diamondFields [0, 1, 2, 3]) 5 0 = 5 ∧
      ∀ d j : Nat, depthCalls (ladder (j + d)) (d + 1) j (j + d) = 2 ^ d :=
  ⟨by decide, ladder_depthCalls⟩

/-- A successful split reconstructs the key: the prefix, a double
underscore, and the remainder. -/
theorem splitDunder_eq :
    ∀ (k : Key) {f a : Key}, splitDunder k = some (f, a) →
      k = f ++ '_' :: '_' :: a := by
  intro k
  induction k with
  | nil => intro f a h; simp [splitDunder] at h
  | cons c rest ih =>
    intro f a h
    cases rest with
    | nil => simp [splitDunder] at h
    | cons c' rest' =>
      simp only [splitDunder] at h
      by_cases hc : c = '_' ∧ c' = '_'
      · rw [if_pos hc] at h
        obtain ⟨hf, ha⟩ : ([] : Key) = f ∧ rest' = a := by
          simpa [Prod.ext_iff] using h
        obtain ⟨hc1, hc2⟩ := hc
        subst hc1; subst hc2; subst hf; subst ha
        rfl
      · rw [if_neg hc] at h
        obtain ⟨pr, hsp, hmap⟩ := Option.map_eq_some'.mp h
        obtain ⟨hf, ha⟩ : c :: pr.1 = f ∧ pr.2 = a := by
          simpa [Prod.ext_iff] using hmap
        subst hf; subst ha
        have hrec := ih (f := pr.1) (a := pr.2) (by rw [hsp])
        rw [List.cons_append, ← hrec]

/-- Splitting is injective: the split parts determine the key. -/
theorem splitDunder_inj {k₁ k₂ f a : Key}
    (h₁ : splitDunder k₁ = some (f, a)) (h₂ : splitDunder k₂ = some (f, a)) :
    k₁ = k₂ := by
  rw [splitDunder_eq k₁ h₁, splitDunder_eq k₂ h₂]

/-- The overwrite map of `dictSet` preserves keys, so `find?` by key
commutes with it. -/
theorem find?_mapDictSet {α : Type} (t : List (Key × α)) (k : Key) (v : α)
    (x : Key) :
    (t.map fun p => if p.1 = k then (k, v) else p).find?
        (fun q => decide (q.1 = x)) =
      (t.find? (fun q => decide (q.1 = x))).map
        (fun p => if p.1 = k then (k, v) else p) := by
  induction t with
  | nil => rfl
  | cons p t ih =>
    rw [List.map_cons, List.find?_cons, List.find?_cons]
    have hg1 : ((if p.1 = k then (k, v) else p) : Key × α).1 = p.1 := by
      by_cases h : p.1 = k <;> simp [h]
    rw [hg1]
    cases hd : decide (p.1 = x) with
    | true => rfl
    | false => exact ih

/-- Lookup after `dictSet`: the new value at the written key, everything
else unchanged. -/
theorem lookup1_dictSet {α : Type} (d : List (Key × α)) (k : Key) (v : α)
    (x : Key) :
    lookup1 (dictSet d k v) x = if x = k then some v else lookup1 d x := by
  unfold dictSet lookup1
  by_cases hany : (d.any fun p => decide (p.1 = k)) = true
  · rw [if_pos hany, find?_mapDictSet]
    by_cases hx : x = k
    · subst hx
      rw [if_pos rfl]
      obtain ⟨p, hp, hpk⟩ := List.any_eq_true.mp hany
      have hpk' : p.1 = x := of_decide_eq_true hpk
      cases hf : d.find? (fun q => decide (q.1 = x)) with
      | none =>
        exfalso
        rw [List.find?_eq_none] at hf
        exact hf p hp (by simp [hpk'])
      | some q =>
        have hq1 : q.1 = x := by simpa using List.find?_some hf
        simp [hq1]
    · rw [if_neg hx]
      cases hf : d.find? (fun q => decide (q.1 = x)) with
      | none => rfl
      | some q =>
        have hq1 : q.1 = x := by simpa using List.find?_some hf
        have hqk : q.1 ≠ k := by rw [hq1]; exact hx
        simp [hqk]
  · rw [if_neg hany, List.find?_append]
    cases hf : d.find? (fun q => decide (q.1 = x)) with
    | some q =>
      have hqx : x ≠ k := by
        intro hxk
        apply hany
        rw [List.any_eq_true]
        have hq1 : q.1 = x := by simpa using List.find?_some hf
        exact ⟨q, List.mem_of_find?_eq_some hf, by simp [hq1, hxk]⟩
      simp [hqx]
    | none =>
      simp only [Option.none_or]
      by_cases hx : x = k
      · subst hx; simp
      · have hd : decide ((k : Key) = x) = false :=
          decide_eq_false (fun hh => hx hh.symm)
        rw [List.find?_cons, hd]
        simp [hx]

/-- The overwrite map of `ddInsert` preserves keys, so `find?` by key
commutes with it. -/
theorem find?_mapDDInsert {α : Type} (t : List (Key × List (Key × α)))
    (fo ar : Key) (v : α) (x : Key) :
    (t.map fun p => if p.1 = fo then (p.1, dictSet p.2 ar v) else p).find?
        (fun q => decide (q.1 = x)) =
      (t.find? (fun q => decide (q.1 = x))).map
        (fun p => if p.1 = fo then (p.1, dictSet p.2 ar v) else p) := by
  induction t with
  | nil => rfl
  | cons p t ih =>
    rw [List.map_cons, List.find?_cons, List.find?_cons]
    have hg1 : ((if p.1 = fo then (p.1, dictSet p.2 ar v) else p) :
        Key × List (Key × α)).1 = p.1 := by
      by_cases h : p.1 = fo <;> simp [h]
    rw [hg1]
    cases hd : decide (p.1 = x) with
    | true => rfl
    | false => exact ih

/-- Two-level lookup after the `defaultdict` insertion: the new value at
the written (form, arg) address, everything else unchanged. -/
theorem lookup2_ddInsert {α : Type} (d : List (Key × List (Key × α)))
    (fo ar : Key) (v : α) (f a : Key) :
    lookup2 (ddInsert d fo ar v) f a =
      if f = fo ∧ a = ar then some v else lookup2 d f a := by
  unfold ddInsert lookup2
  by_cases hany : (d.any fun p => decide (p.1 = fo)) = true
  · rw [if_pos hany, find?_mapDDInsert]
    cases hf : d.find? (fun p => decide (p.1 = f)) with
    | none =>
      have hffo : f ≠ fo := by
        intro hxk
        subst hxk
        obtain ⟨p, hp, hpk⟩ := List.any_eq_true.mp hany
        rw [List.find?_eq_none] at hf
        exact hf p hp hpk
      simp [hffo]
    | some q =>
      have hq1 : q.1 = f := by simpa using List.find?_some hf
      simp only [Option.map_some', Option.some_bind]
      by_cases hffo : f = fo
      · subst hffo
        rw [if_pos hq1]
        by_cases ha : a = ar
        · simp [lookup1_dictSet, ha]
        · simp [lookup1_dictSet, ha]
      · have hqfo : q.1 ≠ fo := by rw [hq1]; exact hffo
        rw [if_neg hqfo]
        simp [hffo]
  · rw [if_neg hany, List.find?_append]
    cases hf : d.find? (fun p => decide (p.1 = f)) with
    | some q =>
      have hffo : f ≠ fo := by
        intro hxk
        apply hany
        rw [List.any_eq_true]
        have hq1 : q.1 = f := by simpa using List.find?_some hf
        exact ⟨q, List.mem_of_find?_eq_some hf, by simp [hq1, ← hxk]⟩
      simp [hffo]
    | none =>
      simp only [Option.none_or]
      by_cases hffo : f = fo
      · subst hffo
        by_cases ha : a = ar
        · subst ha
          simp [lookup1]
        · simp [lookup1, Ne.symm ha, ha]
      · simp [Ne.symm hffo, hffo]

/-- The fold of `extract_subform_args` acts independently on the grouped
result and on `raw_kwargs`: the first component only receives insertions,
the second only deletions. -/
theorem extract_fold_split {α : Type} (names : List Key) :
    ∀ (l : List (Key × α))
      (st : List (Key × List (Key × α)) × List (Key × α)),
      l.foldl (fun st kv =>
        match splitDunder kv.1 with
        | none => st
        | some (formname, argname) =>
          if formname ∈ names then
            (ddInsert st.1 formname argname kv.2, dictDel st.2 kv.1)
          else st) st =
      (l.foldl (fun d kv =>
          match splitDunder kv.1 with
          | none => d
          | some (formname, argname) =>
            if formname ∈ names then ddInsert d formname argname kv.2
            else d) st.1,
       l.foldl (fun d kv =>
          if extractable names kv.1 then dictDel d kv.1 else d) st.2) := by
  intro l
  induction l with
  | nil => intro st; rfl
  | cons kv t ih =>
    intro st
    rw [List.foldl_cons, List.foldl_cons, List.foldl_cons, ih]
    cases hsp : splitDunder kv.1 with
    | none => simp [extractable, hsp]
    | some pr =>
      obtain ⟨fo, ar⟩ := pr
      by_cases hin : fo ∈ names
      · simp [extractable, hsp, hin]
      · simp [extractable, hsp, hin]

/-- The grouped result of `extract_subform_args` is the insertion fold. -/
theorem extract_fst_eq {α : Type} (names : List Key)
    (kwargs : List (Key × α)) :
    (extract_subform_args kwargs names).1 =
      kwargs.foldl (fun d kv =>
        match splitDunder kv.1 with
        | none => d
        | some (formname, argname) =>
          if formname ∈ names then ddInsert d formname argname kv.2
          else d) [] := by
  unfold extract_subform_args
  rw [extract_fold_split]

/-- The mutated `raw_kwargs` of `extract_subform_args` is the deletion
fold. -/
theorem extract_snd_eq {α : Type} (names : List Key)
    (kwargs : List (Key × α)) :
    (extract_subform_args kwargs names).2 =
      kwargs.foldl (fun d kv =>
        if extractable names kv.1 then dictDel d kv.1 else d) kwargs := by
  unfold extract_subform_args
  rw [extract_fold_split]

/-- Folding the per-item deletions equals filtering out every key that some
processed item marks extractable. -/
theorem delfold_filter {α : Type} (names : List Key) :
    ∀ (l d : List (Key × α)),
      l.foldl (fun d kv =>
          if extractable names kv.1 then dictDel d kv.1 else d) d =
        d.filter (fun kv =>
          !(l.any (fun kw =>
            extractable names kw.1 && decide (kw.1 = kv.1)))) := by
  intro l
  induction l with
  | nil =>
    intro d
    simp
  | cons kw t ih =>
    intro d
    rw [List.foldl_cons, ih]
    by_cases hex : extractable names kw.1 = true
    · rw [if_pos hex]
      unfold dictDel
      rw [List.filter_filter]
      apply List.filter_congr
      intro kv _
      rw [List.any_cons, hex]
      by_cases hk : kw.1 = kv.1
      · have h1 : decide (¬ kv.1 = kw.1) = false :=
          decide_eq_false (fun hne => hne hk.symm)
        have h2 : decide (kw.1 = kv.1) = true := decide_eq_true hk
        rw [h1, h2]
        simp
      · have h1 : decide (¬ kv.1 = kw.1) = true :=
          decide_eq_true (fun hh => hk hh.symm)
        have h2 : decide (kw.1 = kv.1) = false := decide_eq_false hk
        rw [h1, h2]
        simp
    · have hex' : extractable names kw.1 = false := by
        revert hex; cases extractable names kw.1 <;> simp
      rw [if_neg hex]
      apply List.filter_congr
      intro kv _
      rw [List.any_cons, hex']
      simp

/-- The remaining `raw_kwargs` are exactly the non-extractable entries, in
order and with unchanged values. -/
theorem extract_remaining {α : Type} (names : List Key)
    (kwargs : List (Key × α)) :
    (extract_subform_args kwargs names).2 =
      kwargs.filter (fun kv => !(extractable names kv.1)) := by
  rw [extract_snd_eq, delfold_filter]
  apply List.filter_congr
  intro kv hkv
  by_cases hex : extractable names kv.1 = true
  · have hany : (kwargs.any (fun kw =>
        extractable names kw.1 && decide (kw.1 = kv.1))) = true :=
      List.any_eq_true.mpr ⟨kv, hkv, by simp [hex]⟩
    simp [hany, hex]
  · have hex' : extractable names kv.1 = false := by
      revert hex; cases extractable names kv.1 <;> simp
    have hany : (kwargs.any (fun kw =>
        extractable names kw.1 && decide (kw.1 = kv.1))) = false := by
      rw [Bool.eq_false_iff]
      intro hc
      obtain ⟨kw, _, hkw⟩ := List.any_eq_true.mp hc
      rw [Bool.and_eq_true] at hkw
      have hkey : kw.1 = kv.1 := of_decide_eq_true hkw.2
      rw [hkey] at hkw
      rw [hex'] at hkw
      exact Bool.false_ne_true hkw.1
    simp [hany, hex']

/-- Looking up `(f, a)` after the insertion fold finds the unique entry of
the iteration list whose key splits into `(f, a)` with `f` a known name, or
falls back to the initial dict. -/
theorem insfold_lookup2 {α : Type} (names : List Key) (f a : Key) :
    ∀ (l : List (Key × α)) (d : List (Key × List (Key × α))),
      (l.map Prod.fst).Nodup →
      lookup2 (l.foldl (fun d kv =>
          match splitDunder kv.1 with
          | none => d
          | some (formname, argname) =>
            if formname ∈ names then ddInsert d formname argname kv.2
            else d) d) f a =
        match l.find? (fun kv =>
            decide (splitDunder kv.1 = some (f, a)) && decide (f ∈ names)) with
        | some kv => some kv.2
        | none => lookup2 d f a := by
  intro l
  induction l with
  | nil => intro d _; rfl
  | cons kv t ih =>
    intro d hnd
    rw [List.map_cons, List.nodup_cons] at hnd
    obtain ⟨hk1, hnd'⟩ := hnd
    rw [List.foldl_cons, List.find?_cons]
    cases hpred : (decide (splitDunder kv.1 = some (f, a)) &&
        decide (f ∈ names)) with
    | true =>
      rw [Bool.and_eq_true] at hpred
      have hsp : splitDunder kv.1 = some (f, a) := of_decide_eq_true hpred.1
      have hin : f ∈ names := of_decide_eq_true hpred.2
      rw [ih _ hnd']
      have hnone : t.find? (fun kw =>
          decide (splitDunder kw.1 = some (f, a)) && decide (f ∈ names)) =
          none := by
        rw [List.find?_eq_none]
        intro kw hkw hq
        rw [Bool.and_eq_true] at hq
        have hspk : splitDunder kw.1 = some (f, a) := of_decide_eq_true hq.1
        have : kw.1 = kv.1 := splitDunder_inj hspk hsp
        exact hk1 (this ▸ List.mem_map.mpr ⟨kw, hkw, rfl⟩)
      rw [hnone]
      simp only [hsp, if_pos hin]
      rw [lookup2_ddInsert]
      simp
    | false =>
      rw [ih _ hnd']
      cases hft : t.find? (fun kw =>
          decide (splitDunder kw.1 = some (f, a)) && decide (f ∈ names)) with
      | some kw => rfl
      | none =>
        cases hsp : splitDunder kv.1 with
        | none => simp [hsp]
        | some pr =>
          obtain ⟨fo, ar⟩ := pr
          by_cases hin : fo ∈ names
          · simp only [hsp, if_pos hin]
            rw [lookup2_ddInsert]
            rw [if_neg]
            rintro ⟨rfl, rfl⟩
            rw [hsp] at hpred
            simp [hin] at hpred
          · simp [hsp, hin]

/-- C9: `extract_subform_args` removes from the kwargs dict exactly the
entries whose key contains a double underscore and whose prefix before the
first one is a known subform name — every other entry stays, in order, with
its value unchanged — and groups the removed entries as
`{subform: {suffix: value}}` split at the first double underscore. -/
theorem C9_extract_subform_args (α : Type) (kwargs : List (Key × α))
    (names : List Key) (hnd : (kwargs.map Prod.fst).Nodup) :
    (extract_subform_args kwargs names).2 =
        kwargs.filter (fun kv => !(extractable names kv.1)) ∧
      ∀ f a (v : α),
        lookup2 (extract_subform_args kwargs names).1 f a = some v ↔
          ∃ k, splitDunder k = some (f, a) ∧ f ∈ names ∧ (k, v) ∈ kwargs := by
  refine ⟨extract_remaining names kwargs, ?_⟩
  intro f a v
  rw [extract_fst_eq, insfold_lookup2 names f a kwargs [] hnd]
  constructor
  · cases hf : kwargs.find? (fun kv =>
        decide (splitDunder kv.1 = some (f, a)) && decide (f ∈ names)) with
    | none =>
      intro h
      simp [lookup2] at h
    | some kv =>
      intro h
      have hv : kv.2 = v := by injection h
      have hkv := List.mem_of_find?_eq_some hf
      have hpred := List.find?_some hf
      rw [Bool.and_eq_true] at hpred
      refine ⟨kv.1, of_decide_eq_true hpred.1, of_decide_eq_true hpred.2, ?_⟩
      rw [← hv]
      simpa using hkv
  · rintro ⟨k, hsp, hin, hkv⟩
    cases hf : kwargs.find? (fun kv =>
        decide (splitDunder kv.1 = some (f, a)) && decide (f ∈ names)) with
    | none =>
      exfalso
      rw [List.find?_eq_none] at hf
      exact hf (k, v) hkv (by simp [hsp, hin])
    | some kv =>
      have hkvm := List.mem_of_find?_eq_some hf
      have hpred := List.find?_some hf
      rw [Bool.and_eq_true] at hpred
      have hsp' : splitDunder kv.1 = some (f, a) := of_decide_eq_true hpred.1
      have hkey : kv.1 = k := splitDunder_inj hsp' hsp
      have hkveq : kv = (k, v) :=
        List.inj_on_of_nodup_map hnd hkvm hkv (by rw [hkey])
      rw [hkveq]

/-- Witness for C9 at the docstring example
`extract_subform_args({'f1__x': 5}, ['f1'])`. -/
theorem C9_extract_subform_args_witness :
    (extract_subform_args [((['f', '1', '_', '_', 'x'] : Key), (5 : Nat))]
          [(['f', '1'] : Key)]).2 =
        [((['f', '1', '_', '_', 'x'] : Key), (5 : Nat))].filter
          (fun kv => !(extractable [(['f', '1'] : Key)] kv.1)) ∧
      ∀ f a (v : Nat),
        lookup2 (extract_subform_args
            [((['f', '1', '_', '_', 'x'] : Key), (5 : Nat))]
            [(['f', '1'] : Key)]).1 f a = some v ↔
          ∃ k, splitDunder k = some (f, a) ∧ f ∈ [(['f', '1'] : Key)] ∧
            (k, v) ∈ [((['f', '1', '_', '_', 'x'] : Key), (5 : Nat))] :=
  C9_extract_subform_args Nat [((['f', '1', '_', '_', 'x'] : Key), 5)]
    [(['f', '1'] : Key)] (by decide)

end Combinedform
